import Mathlib

/-!
Verification of the `sl-viewer` JSON log pretty-printer (`src/main.rs`).

The development shallowly embeds the program:
* `Color`, `ColorPalette` and the four built-in palettes (`chalk`, `ocean`,
  `greyscale`, `solarized`) mirror the Rust structs and constructors;
* `colorize` models the `colored` crate's truecolor foreground escape
  (`ESC[38;2;r;g;bm … ESC[0m`) that `.color(Color::TrueColor{..})` emits;
* `JValue` models `serde_json::Value`; following the specification's data
  model (section 3), a number is carried as its textual representation as
  encountered, which `Display` reproduces;
* `parseValue` / `parseJson` model `serde_json::from_str` on one input line
  (standard JSON grammar, fuelled recursion);
* `formatJson`, `formatArray`, `formatObject`, `indent` and `formatInput`
  mirror the corresponding `FormatService` methods line by line;
* `mainOutcome` models the process behaviour of `main`.
-/

/-- JSON insignificant whitespace, the characters skipped between tokens. -/
def isWsChar (c : Char) : Bool :=
  c = ' ' || c = '\t' || c = '\n' || c = '\r'

/-- Decimal digit character for a digit value (used to print color components). -/
def decDigit (d : Nat) : Char :=
  match d with
  | 0 => '0' | 1 => '1' | 2 => '2' | 3 => '3' | 4 => '4'
  | 5 => '5' | 6 => '6' | 7 => '7' | 8 => '8' | 9 => '9'
  | _ => '0'

/-- Digits of `n` in base 10, most significant first (empty for `n = 0`). -/
def decimalAux : Nat → Nat → List Char
  | 0, _ => []
  | fuel + 1, n => if n = 0 then [] else decimalAux fuel (n / 10) ++ [decDigit (n % 10)]

/-- Decimal rendering of a natural number, modelling Rust's `Display` for `u8`. -/
def decimal (n : Nat) : String :=
  if n = 0 then "0" else String.mk (decimalAux (n + 1) n)

/-- A 24-bit truecolor value: model of `colored::Color::TrueColor`. -/
structure Color where
  r : Nat
  g : Nat
  b : Nat
deriving Repr, DecidableEq

/-- Model of the `colored` crate's colorization of a string with a truecolor
foreground: the SGR sequence `ESC[38;2;r;g;bm`, the text, then the reset
`ESC[0m`. -/
def colorize (c : Color) (s : String) : String :=
  "\x1b[38;2;" ++ decimal c.r ++ ";" ++ decimal c.g ++ ";" ++ decimal c.b ++ "m"
    ++ s ++ "\x1b[0m"

/-- Model of the `colored` crate's `.red()` (ANSI basic foreground 31). -/
def redColorize (s : String) : String :=
  "\x1b[31m" ++ s ++ "\x1b[0m"

/-- The five-slot palette of `src/main.rs` (`struct ColorPalette`). -/
structure ColorPalette where
  null : Color
  bool : Color
  number : Color
  string : Color
  object_key : Color
deriving Repr, DecidableEq

/-- The `chalk` palette of `src/main.rs`. -/
def ColorPalette.chalk : ColorPalette :=
  { null := ⟨0xdd, 0xb2, 0x6f⟩
    bool := ⟨0xe1, 0xa3, 0xee⟩
    number := ⟨0x6f, 0xc2, 0xef⟩
    string := ⟨0x12, 0xcf, 0xc0⟩
    object_key := ⟨0xfb, 0x9f, 0xb1⟩ }

/-- The `ocean` palette of `src/main.rs`. -/
def ColorPalette.ocean : ColorPalette :=
  { null := ⟨0xbf, 0x61, 0x6a⟩
    bool := ⟨0xeb, 0xec, 0x8b⟩
    number := ⟨0xa3, 0xbe, 0x8c⟩
    string := ⟨0x8f, 0xa1, 0xb3⟩
    object_key := ⟨0xb4, 0x8e, 0xad⟩ }

/-- The `greyscale` palette of `src/main.rs`. -/
def ColorPalette.greyscale : ColorPalette :=
  { null := ⟨0xb9, 0xb9, 0xb9⟩
    bool := ⟨0xf7, 0xf7, 0xf7⟩
    number := ⟨0x86, 0x86, 0x86⟩
    string := ⟨0xa0, 0xa0, 0xa0⟩
    object_key := ⟨0x68, 0x68, 0x68⟩ }

/-- The `solarized` palette of `src/main.rs`. -/
def ColorPalette.solarized : ColorPalette :=
  { null := ⟨0xdc, 0x32, 0x2f⟩
    bool := ⟨0xb5, 0x89, 0x00⟩
    number := ⟨0x6c, 0x71, 0xc4⟩
    string := ⟨0x26, 0x8b, 0xd2⟩
    object_key := ⟨0x2a, 0xa1, 0x98⟩ }

/-- Model of `ColorPalette::from_str`: exact, case-sensitive match on the four
built-in scheme names, `none` otherwise. -/
def ColorPalette.from_str (palette : String) : Option ColorPalette :=
  if palette = "ocean" then some ColorPalette.ocean
  else if palette = "chalk" then some ColorPalette.chalk
  else if palette = "greyscale" then some ColorPalette.greyscale
  else if palette = "solarized" then some ColorPalette.solarized
  else none

/-- Model of Rust's `Vec<String>::join`. -/
def joinSep (sep : String) : List String → String
  | [] => ""
  | [s] => s
  | s :: rest => s ++ sep ++ joinSep sep rest

/-- Model of `indent` in `src/main.rs`: `depth` copies of two spaces, joined. -/
def indent (depth : Nat) : String :=
  joinSep "" (List.replicate depth "  ")

/-- Model of `serde_json::Value`. Following the specification's data model
(section 3), a number is represented by its textual form as encountered in the
source; `serde_json`'s `Display` for `Number` prints a canonical text that
denotes the same numeric value, so this representation preserves exactly the
parse/print behaviour the claims are about. -/
inductive JValue where
  | null
  | bool (b : Bool)
  | num (n : String)
  | str (s : String)
  | arr (elems : List JValue)
  | obj (entries : List (String × JValue))
deriving Repr

/-- Skip JSON insignificant whitespace. -/
def skipWs (cs : List Char) : List Char :=
  cs.dropWhile isWsChar

/-- Characters that can occur in a JSON number token. -/
def isNumChar (c : Char) : Bool :=
  c.isDigit || c = '-' || c = '+' || c = '.' || c = 'e' || c = 'E'

/-- Consume one or more digits; `none` when the input does not start with a
digit, otherwise the rest after the maximal digit run. -/
def digits1 : List Char → Option (List Char)
  | [] => none
  | c :: rest => if c.isDigit then some (rest.dropWhile Char.isDigit) else none

/-- Well-formed exponent tail, after the `e`/`E`: optional sign, then one or
more digits ending the token. -/
def wfExpTail (cs : List Char) : Bool :=
  match cs with
  | [] => false
  | c :: rest =>
    let body := if c = '+' || c = '-' then rest else c :: rest
    match digits1 body with
    | some r => r.isEmpty
    | none => false

/-- Well-formed optional exponent part ending the token. -/
def wfExpPart : List Char → Bool
  | [] => true
  | c :: rest => if c = 'e' || c = 'E' then wfExpTail rest else false

/-- Well-formed optional fraction part followed by an optional exponent,
ending the token. -/
def wfAfterInt : List Char → Bool
  | [] => true
  | c :: rest =>
    if c = '.' then
      match digits1 rest with
      | some r => wfExpPart r
      | none => false
    else if c = 'e' || c = 'E' then wfExpTail rest
    else false

/-- Integer part of a number token: `0`, or a nonzero digit followed by more
digits (no leading zero), then the optional fraction and exponent. -/
def wfIntPart : List Char → Bool
  | [] => false
  | c :: rest =>
    if c = '0' then wfAfterInt rest
    else if c.isDigit then wfAfterInt (rest.dropWhile Char.isDigit)
    else false

/-- Well-formed JSON number token: optional minus, integer part with no
leading zero, optional fraction, optional exponent (RFC 8259 grammar, the one
`serde_json` implements). -/
def wfNumber : List Char → Bool
  | [] => false
  | c :: rest => if c = '-' then wfIntPart rest else wfIntPart (c :: rest)

/-- Number parsing: take the maximal run of number characters and accept it
when it is a well-formed token. On any full line this refuses exactly the
inputs `serde_json::from_str` refuses (a malformed token fails here; a token
followed by extra number characters is refused by the grammar check; a token
followed by other characters is refused by the caller's end-of-input or
delimiter check). -/
def parseNumber (cs : List Char) : Option (String × List Char) :=
  let tok := cs.takeWhile isNumChar
  if wfNumber tok then some (String.mk tok, cs.dropWhile isNumChar) else none

/-- Hexadecimal digit value. -/
def hexVal (c : Char) : Option Nat :=
  if 48 ≤ c.toNat && c.toNat ≤ 57 then some (c.toNat - 48)
  else if 97 ≤ c.toNat && c.toNat ≤ 102 then some (c.toNat - 87)
  else if 65 ≤ c.toNat && c.toNat ≤ 70 then some (c.toNat - 55)
  else none

/-- Value of four hexadecimal digits. -/
def hex4 (h1 h2 h3 h4 : Char) : Option Nat := do
  let a ← hexVal h1
  let b ← hexVal h2
  let c ← hexVal h3
  let d ← hexVal h4
  pure (((a * 16 + b) * 16 + c) * 16 + d)

/-- Single-character JSON string escapes. -/
def escChar (c : Char) : Option Char :=
  if c = '"' then some '"'
  else if c = '/' then some '/'
  else if c = '\\' then some '\\'
  else if c = 'n' then some '\n'
  else if c = 'r' then some '\r'
  else if c = 't' then some '\t'
  else if c = 'b' then some (Char.ofNat 8)
  else if c = 'f' then some (Char.ofNat 12)
  else none

mutual

/-- Body of a JSON string, after the opening quote: decoded content and the
rest after the closing quote. Raw control characters are refused, escapes are
decoded, `\uXXXX` handles surrogate pairs and refuses lone surrogates, as
`serde_json` does. -/
def parseStringBody : List Char → Option (List Char × List Char)
  | [] => none
  | c :: rest =>
    if c = '"' then some ([], rest)
    else if c = '\\' then parseEscape rest
    else if c.val < 0x20 then none
    else (parseStringBody rest).map (fun p => (c :: p.1, p.2))

/-- Decode one escape, after the backslash, then the rest of the string. -/
def parseEscape : List Char → Option (List Char × List Char)
  | 'u' :: h1 :: h2 :: h3 :: h4 :: rest =>
    match hex4 h1 h2 h3 h4 with
    | none => none
    | some n =>
      if 0xD800 ≤ n && n ≤ 0xDBFF then
        match rest with
        | '\\' :: 'u' :: g1 :: g2 :: g3 :: g4 :: rest2 =>
          match hex4 g1 g2 g3 g4 with
          | none => none
          | some m =>
            if 0xDC00 ≤ m && m ≤ 0xDFFF then
              (parseStringBody rest2).map
                (fun p => (Char.ofNat (0x10000 + (n - 0xD800) * 0x400 + (m - 0xDC00)) :: p.1, p.2))
            else none
        | _ => none
      else if 0xDC00 ≤ n && n ≤ 0xDFFF then none
      else (parseStringBody rest).map (fun p => (Char.ofNat n :: p.1, p.2))
  | c :: rest =>
    match escChar c with
    | none => none
    | some e => (parseStringBody rest).map (fun p => (e :: p.1, p.2))
  | [] => none

end

/-- Modelled from the spec: the repository's `Cargo.toml` (not under `src/`)
decides `serde_json`'s map representation; per the specification's data model
("ordered mapping from string key to Value, insertion order preserved") the
map is insertion-ordered, a later duplicate key replacing the value at the
first occurrence's position. -/
def insertEntry (m : List (String × JValue)) (k : String) (v : JValue) :
    List (String × JValue) :=
  if m.any (fun e => e.1 = k) then m.map (fun e => if e.1 = k then (k, v) else e)
  else m ++ [(k, v)]

/-- Build the object map by inserting the entries in encounter order. -/
def buildMap (entries : List (String × JValue)) : List (String × JValue) :=
  entries.foldl (fun m e => insertEntry m e.1 e.2) []

/-- Expect the given literal characters, returning the rest. -/
def expectChars : List Char → List Char → Option (List Char)
  | [], rest => some rest
  | _ :: _, [] => none
  | e :: es, c :: rest => if c = e then expectChars es rest else none

mutual

/-- Model of `serde_json`'s value parser: dispatch on the first significant
character, as the deserializer does. The fuel bounds the recursion depth; it
is decremented once per nested parse, and `parseJson` supplies enough for any
input of the given length. -/
def parseValue : Nat → List Char → Option (JValue × List Char)
  | 0, _ => none
  | fuel + 1, cs =>
    match skipWs cs with
    | [] => none
    | c :: rest =>
      if c = 'n' then (expectChars ['u', 'l', 'l'] rest).map (fun r => (.null, r))
      else if c = 't' then (expectChars ['r', 'u', 'e'] rest).map (fun r => (.bool true, r))
      else if c = 'f' then (expectChars ['a', 'l', 's', 'e'] rest).map (fun r => (.bool false, r))
      else if c = '"' then (parseStringBody rest).map (fun p => (.str (String.mk p.1), p.2))
      else if c = '[' then
        match skipWs rest with
        | ']' :: rest2 => some (.arr [], rest2)
        | rest2 => (parseElems fuel rest2).map (fun p => (.arr p.1, p.2))
      else if c = '\x7b' then
        match skipWs rest with
        | '\x7d' :: rest2 => some (.obj [], rest2)
        | rest2 => (parseMembers fuel rest2).map (fun p => (.obj (buildMap p.1), p.2))
      else (parseNumber (c :: rest)).map (fun p => (.num p.1, p.2))

/-- Elements of a non-empty array, up to and including the closing bracket. -/
def parseElems : Nat → List Char → Option (List JValue × List Char)
  | 0, _ => none
  | fuel + 1, cs =>
    match parseValue fuel cs with
    | none => none
    | some (v, rest) =>
      match skipWs rest with
      | ',' :: rest2 => (parseElems fuel rest2).map (fun p => (v :: p.1, p.2))
      | ']' :: rest2 => some ([v], rest2)
      | _ => none

/-- Members of a non-empty object, in encounter order, up to and including
the closing brace. -/
def parseMembers : Nat → List Char → Option (List (String × JValue) × List Char)
  | 0, _ => none
  | fuel + 1, cs =>
    match skipWs cs with
    | '"' :: rest =>
      match parseStringBody rest with
      | none => none
      | some (key, rest2) =>
        match skipWs rest2 with
        | ':' :: rest3 =>
          match parseValue fuel rest3 with
          | none => none
          | some (v, rest4) =>
            match skipWs rest4 with
            | ',' :: rest5 =>
              (parseMembers fuel rest5).map (fun p => ((String.mk key, v) :: p.1, p.2))
            | '\x7d' :: rest5 => some ([(String.mk key, v)], rest5)
            | _ => none
        | _ => none
    | _ => none

end

/-- Model of `serde_json::from_str::<Value>` on one line: parse a single
value, tolerate surrounding whitespace, refuse trailing characters. -/
def parseJson (s : String) : Option JValue :=
  match parseValue (s.data.length + 1) s.data with
  | some (v, rest) => if (skipWs rest).isEmpty then some v else none
  | none => none

/-- Model of `struct FormatService`. -/
structure FormatService where
  colors : ColorPalette
deriving Repr, DecidableEq

mutual

/-- Model of `FormatService::format_json`: one case per `Value` variant;
arrays and objects recurse at `depth + 1`. The bodies of `format_array` and
`format_object` (applied at `depth + 1`) are written inline so the mutual
recursion is structural; `formatArray` and `formatObject` below name those
bodies and agree definitionally. -/
def formatJson (svc : FormatService) : JValue → Nat → String
  | .null, _ => colorize svc.colors.null "null"
  | .bool b, _ => colorize svc.colors.bool (if b then "true" else "false")
  | .num n, _ => colorize svc.colors.number n
  | .str s, _ => colorize svc.colors.string ("\"" ++ s ++ "\"")
  | .arr a, depth =>
    "[\n" ++ joinSep ",\n" (formatElems svc a (depth + 1)) ++ "\n"
      ++ indent (depth + 1 - 1) ++ "]"
  | .obj o, depth =>
    "\x7b\n" ++ joinSep ",\n" (formatEntries svc o (depth + 1)) ++ "\n"
      ++ indent (depth + 1 - 1) ++ "\x7d"

/-- The element lines of `format_array`: `values.iter().map(..).collect()`,
each element prefixed by its indentation. -/
def formatElems (svc : FormatService) : List JValue → Nat → List String
  | [], _ => []
  | v :: vs, depth =>
    (indent depth ++ formatJson svc v depth) :: formatElems svc vs depth

/-- The entry lines of `format_object`: `map.iter().map(..).collect()`; the
key is colorized with the `object_key` color and is not wrapped in quotes. -/
def formatEntries (svc : FormatService) : List (String × JValue) → Nat → List String
  | [], _depth => []
  | (k, v) :: es, depth =>
    (indent depth ++ colorize svc.colors.object_key k ++ ": " ++ formatJson svc v depth)
      :: formatEntries svc es depth

end

/-- Model of `FormatService::format_array`: the element lines joined by
`,\n` between the brackets. `formatJson` on an array at depth `d` is
definitionally `formatArray` at depth `d + 1`, as in the source. -/
def formatArray (svc : FormatService) (values : List JValue) (depth : Nat) : String :=
  "[\n" ++ joinSep ",\n" (formatElems svc values depth) ++ "\n" ++ indent (depth - 1) ++ "]"

/-- Model of `FormatService::format_object`: the entry lines joined by
`,\n` between the braces. `formatJson` on an object at depth `d` is
definitionally `formatObject` at depth `d + 1`, as in the source. -/
def formatObject (svc : FormatService) (map : List (String × JValue)) (depth : Nat) :
    String :=
  "\x7b\n" ++ joinSep ",\n" (formatEntries svc map depth) ++ "\n" ++ indent (depth - 1)
    ++ "\x7d"

/-- Model of `FormatService::format_input`: parse the line; on success format
the value at depth 0, on failure return the line unchanged. -/
def formatInput (svc : FormatService) (line : String) : String :=
  match parseJson line with
  | some j => formatJson svc j 0
  | none => line

/-- Model of one call of the method `format_input` on a `FormatService`,
returning the produced string together with the service state observable
after the call (the method takes `&self`, so the state is returned as is). -/
def formatInputCall (svc : FormatService) (line : String) : String × FormatService :=
  (formatInput svc line, svc)

/-- Model of `main`: resolve the scheme name; on failure print the red
unknown-scheme message and exit with status 1 without reading any input; on
success format every input line, printing each trimmed result. -/
def mainOutcome (scheme : String) (input : List String) :
    Except (String × Nat) (List String) :=
  match ColorPalette.from_str scheme with
  | some palette => .ok (input.map (fun line => (formatInput ⟨palette⟩ line).trim))
  | none => .error (redColorize ("Unknown color scheme: " ++ scheme), 1)

/-- One step of ANSI-escape stripping, the state tracking whether the scan is
inside an escape sequence (from `ESC` up to the terminating `m`). -/
def stripStep (st : Bool × List Char) (c : Char) : Bool × List Char :=
  if st.1 then (c != 'm', st.2)
  else if c = '\x1b' then (true, st.2)
  else (false, st.2 ++ [c])

/-- Strip ANSI SGR color escape sequences from a character list. -/
def stripColorsData (cs : List Char) : List Char :=
  (cs.foldl stripStep (false, [])).2

/-- Strip ANSI SGR color escape sequences from a string (the claims' notion
of removing color escape codes). -/
def stripColorsStr (s : String) : String :=
  String.mk (stripColorsData s.data)

/-- Strip color escape codes and then all whitespace (the round-trip claim's
normalization). -/
def stripAll (s : String) : String :=
  String.mk ((stripColorsData s.data).filter (fun c => !isWsChar c))

mutual

/-- The text of `formatJson` with the colorization removed: what stripping
the escape sequences from the output leaves. -/
def plainJson : JValue → Nat → String
  | .null, _ => "null"
  | .bool b, _ => if b then "true" else "false"
  | .num n, _ => n
  | .str s, _ => "\"" ++ s ++ "\""
  | .arr a, depth =>
    "[\n" ++ joinSep ",\n" (plainElems a (depth + 1)) ++ "\n" ++ indent depth ++ "]"
  | .obj o, depth =>
    "\x7b\n" ++ joinSep ",\n" (plainEntries o (depth + 1)) ++ "\n" ++ indent depth ++ "\x7d"

def plainElems : List JValue → Nat → List String
  | [], _ => []
  | v :: vs, depth => (indent depth ++ plainJson v depth) :: plainElems vs depth

def plainEntries : List (String × JValue) → Nat → List String
  | [], _depth => []
  | (k, v) :: es, depth => (indent depth ++ k ++ ": " ++ plainJson v depth) :: plainEntries es depth

end

mutual

/-- The output of the formatter with colors and whitespace stripped: the
value in fully compact form. Note the object keys appear without quotes,
exactly as `format_object` prints them. -/
def compact : JValue → List Char
  | .null => "null".data
  | .bool true => "true".data
  | .bool false => "false".data
  | .num n => n.data
  | .str s => '"' :: s.data ++ ['"']
  | .arr vs => '[' :: compactElems vs ++ [']']
  | .obj es => '\x7b' :: compactEntries es ++ ['\x7d']

def compactElems : List JValue → List Char
  | [] => []
  | [v] => compact v
  | v :: vs => compact v ++ ',' :: compactElems vs

def compactEntries : List (String × JValue) → List Char
  | [] => []
  | [(k, v)] => k.data ++ ':' :: compact v
  | (k, v) :: es => k.data ++ ':' :: compact v ++ ',' :: compactEntries es

end

/-- String content characters for which stripping colors and whitespace from
the formatted output leaves the content intact and re-parsing reads it back:
printable, not whitespace, not a quote, not a backslash. -/
def simpleStrChar (c : Char) : Bool :=
  0x20 < c.val && c != '"' && c != '\\'

mutual

/-- Values whose formatted output survives the strip-and-reparse round trip:
any nesting of null, booleans, well-formed numbers, strings of
`simpleStrChar` characters and arrays; an object only when empty, because
`format_object` prints keys without quotes, which does not re-parse. -/
def simpleValue : JValue → Bool
  | .null => true
  | .bool _ => true
  | .num n => wfNumber n.data
  | .str s => s.data.all simpleStrChar
  | .arr vs => simpleList vs
  | .obj es => es.isEmpty

def simpleList : List JValue → Bool
  | [] => true
  | v :: vs => simpleValue v && simpleList vs

end

/-- Scalar JSON values (no brackets in their rendering). -/
def isScalar : JValue → Bool
  | .null => true
  | .bool _ => true
  | .num _ => true
  | .str _ => true
  | _ => false

/-- The literal textual form of a scalar value, the text `format_json` wraps
in a single color escape. -/
def literalText : JValue → String
  | .null => "null"
  | .bool b => if b then "true" else "false"
  | .num n => n
  | .str s => "\"" ++ s ++ "\""
  | _ => ""

/-- A scalar whose literal text contains no ESC character, so that stripping
color escapes cannot consume any of it. A parsed string can contain ESC only
through a `\u001b` escape in the source. -/
def escFreeScalar (v : JValue) : Bool :=
  (literalText v).data.all (fun c => c != '\x1b')

/-- Characters allowed after a complete compact value: end of input or a
delimiter of the enclosing array. -/
def stopTok : List Char → Prop
  | [] => True
  | c :: _ => c = ',' ∨ c = ']'

mutual

/-- Fuel measure for the parser and the fuelled formatter: enough recursion
depth to traverse the value. -/
def sizeV : JValue → Nat
  | .arr vs => sizeL vs + 1
  | .obj es => sizeE es + 1
  | _ => 1

def sizeL : List JValue → Nat
  | [] => 1
  | v :: vs => sizeV v + sizeL vs

def sizeE : List (String × JValue) → Nat
  | [] => 1
  | (_k, v) :: es => sizeV v + sizeE es

end

mutual

/-- The recursion of `format_json` instrumented with fuel: each recursive
call, including each step along an array or object, consumes one unit. It
returns `none` when the fuel runs out, so producing `some` for some fuel is
exactly termination of the recursion. -/
def formatJsonFuel : Nat → FormatService → JValue → Nat → Option String
  | 0, _, _, _ => none
  | fuel + 1, svc, v, depth =>
    match v with
    | .null => some (colorize svc.colors.null "null")
    | .bool b => some (colorize svc.colors.bool (if b then "true" else "false"))
    | .num n => some (colorize svc.colors.number n)
    | .str s => some (colorize svc.colors.string ("\"" ++ s ++ "\""))
    | .arr a =>
      (formatElemsFuel fuel svc a (depth + 1)).map
        (fun contents => "[\n" ++ joinSep ",\n" contents ++ "\n" ++ indent depth ++ "]")
    | .obj o =>
      (formatEntriesFuel fuel svc o (depth + 1)).map
        (fun contents => "\x7b\n" ++ joinSep ",\n" contents ++ "\n" ++ indent depth ++ "\x7d")

def formatElemsFuel : Nat → FormatService → List JValue → Nat → Option (List String)
  | _, _, [], _ => some []
  | 0, _, _ :: _, _ => none
  | fuel + 1, svc, v :: vs, depth =>
    match formatJsonFuel fuel svc v depth with
    | none => none
    | some s =>
      (formatElemsFuel fuel svc vs depth).map (fun rest => (indent depth ++ s) :: rest)

def formatEntriesFuel : Nat → FormatService → List (String × JValue) → Nat → Option (List String)
  | _, _, [], _ => some []
  | 0, _, _ :: _, _ => none
  | fuel + 1, svc, (k, v) :: es, depth =>
    match formatJsonFuel fuel svc v depth with
    | none => none
    | some s =>
      (formatEntriesFuel fuel svc es depth).map
        (fun rest => (indent depth ++ colorize svc.colors.object_key k ++ ": " ++ s) :: rest)

end

/-- The fuel-instrumented counterpart of `formatInput`. -/
def formatInputFuel (fuel : Nat) (svc : FormatService) (line : String) : Option String :=
  match parseJson line with
  | some j => formatJsonFuel fuel svc j 0
  | none => some line

/-- Concrete input of the specification's first scenario. -/
def c2input : String := "\x7b\"a\":1,\"b\":[true,null]\x7d"

/-- The output the claim describes for that scenario: object keys wrapped in
double quotes, every token colorized with the ocean palette. -/
def c2claimed : String :=
  "\x7b\n  " ++ colorize ColorPalette.ocean.object_key "\"a\"" ++ ": "
    ++ colorize ColorPalette.ocean.number "1" ++ ",\n  "
    ++ colorize ColorPalette.ocean.object_key "\"b\"" ++ ": [\n    "
    ++ colorize ColorPalette.ocean.bool "true" ++ ",\n    "
    ++ colorize ColorPalette.ocean.null "null" ++ "\n  ]\n\x7d"

/-- The output the program produces for that scenario: the same block except
that the object keys are colorized without surrounding quotes. -/
def c2actual : String :=
  "\x7b\n  " ++ colorize ColorPalette.ocean.object_key "a" ++ ": "
    ++ colorize ColorPalette.ocean.number "1" ++ ",\n  "
    ++ colorize ColorPalette.ocean.object_key "b" ++ ": [\n    "
    ++ colorize ColorPalette.ocean.bool "true" ++ ",\n    "
    ++ colorize ColorPalette.ocean.null "null" ++ "\n  ]\n\x7d"

theorem str_ext {a b : String} (h : a.data = b.data) : a = b := by
  cases a
  cases b
  cases h
  rfl

theorem joinSep_cons_cons (sep x y : String) (l : List String) :
    joinSep sep (x :: y :: l) = x ++ sep ++ joinSep sep (y :: l) := rfl

theorem indent_eq (d : Nat) : indent d = String.mk (List.replicate (2 * d) ' ') := by
  induction d with
  | zero => rfl
  | succ m ih =>
    unfold indent at ih ⊢
    rw [List.replicate_succ]
    cases m with
    | zero => rfl
    | succ j =>
      rw [List.replicate_succ, joinSep_cons_cons, ← List.replicate_succ]
      rw [ih]
      apply str_ext
      rw [String.data_append, String.data_append]
      show [' ', ' '] ++ [] ++ List.replicate (2 * (j + 1)) ' ' = _
      have : 2 * (j + 1 + 1) = 2 * (j + 1) + 1 + 1 := by ring
      rw [this, List.replicate_succ, List.replicate_succ]
      simp

theorem formatEntries_eq_map (svc : FormatService) (es : List (String × JValue)) (d : Nat) :
    formatEntries svc es d
      = es.map (fun e => indent d ++ colorize svc.colors.object_key e.1 ++ ": "
          ++ formatJson svc e.2 d) := by
  induction es with
  | nil => rfl
  | cons e es ih =>
    cases e
    simp [formatEntries, ih]

theorem formatElems_eq_map (svc : FormatService) (vs : List JValue) (d : Nat) :
    formatElems svc vs d = vs.map (fun v => indent d ++ formatJson svc v d) := by
  induction vs with
  | nil => simp [formatElems]
  | cons x xs ih => simp [formatElems, ih]

/-- Claim C3: for every input line that fails to parse as JSON, `format_input`
returns exactly the original line string, unchanged. -/
theorem c3_passthrough_exact (svc : FormatService) (line : String)
    (h : parseJson line = none) : formatInput svc line = line := by
  unfold formatInput
  rw [h]

/-- Witness for C3 at the concrete non-JSON line `not json at all`. -/
theorem c3_passthrough_exact_witness :
    parseJson "not json at all" = none
      ∧ formatInput ⟨ColorPalette.chalk⟩ "not json at all" = "not json at all" :=
  ⟨rfl, c3_passthrough_exact ⟨ColorPalette.chalk⟩ "not json at all" rfl⟩

/-- Claim C8: palette lookup succeeds exactly for the four case-sensitive
built-in names; for every other name the lookup signals not-found and the
process prints the unknown-scheme message and exits with status 1, whatever
the input is (so without reading it). -/
theorem c8_unknown_scheme (s : String) :
    ((ColorPalette.from_str s).isSome
        ↔ (s = "chalk" ∨ s = "greyscale" ∨ s = "ocean" ∨ s = "solarized"))
      ∧ (ColorPalette.from_str s = none → ∀ input : List String,
          mainOutcome s input
            = .error (redColorize ("Unknown color scheme: " ++ s), 1)) := by
  constructor
  · unfold ColorPalette.from_str
    split_ifs with h1 h2 h3 h4 <;> simp [*]
  · intro h input
    unfold mainOutcome
    rw [h]

/-- Witness for C8 at the concrete unknown scheme name `neon`. -/
theorem c8_unknown_scheme_witness :
    ColorPalette.from_str "neon" = none
      ∧ mainOutcome "neon" ["42"]
          = .error (redColorize ("Unknown color scheme: " ++ "neon"), 1) :=
  ⟨rfl, (c8_unknown_scheme "neon").2 rfl ["42"]⟩

/-- Claim C10: a call of `format_input` is deterministic in the line and the
palette held by the service — services holding equal palettes produce equal
strings — and leaves the service state unchanged. -/
theorem c10_deterministic (svc1 svc2 : FormatService) (line : String)
    (h : svc1.colors = svc2.colors) :
    (formatInputCall svc1 line).1 = (formatInputCall svc2 line).1
      ∧ (formatInputCall svc1 line).2 = svc1 := by
  have hs : svc1 = svc2 := by
    cases svc1
    cases svc2
    cases h
    rfl
  subst hs
  exact ⟨rfl, rfl⟩

/-- Witness for C10 at two services holding the chalk palette. -/
theorem c10_deterministic_witness :
    (formatInputCall ⟨ColorPalette.chalk⟩ "42").1
        = (formatInputCall ⟨ColorPalette.chalk⟩ "42").1
      ∧ (formatInputCall ⟨ColorPalette.chalk⟩ "42").2 = ⟨ColorPalette.chalk⟩ :=
  c10_deterministic ⟨ColorPalette.chalk⟩ ⟨ColorPalette.chalk⟩ "42" rfl

/-- Claim C4: a JSON object rendered at depth `d` emits one entry per key in
the order of the entry list (never sorted), each entry being the indentation,
the key colorized with the palette's `object_key` color (no quotes added),
the two characters `: `, and the recursive rendering of the value. -/
theorem c4_object_rendering (svc : FormatService) (entries : List (String × JValue))
    (d : Nat) :
    formatJson svc (.obj entries) d
      = "\x7b\n"
        ++ joinSep ",\n" (entries.map (fun e =>
            String.mk (List.replicate (2 * (d + 1)) ' ')
              ++ colorize svc.colors.object_key e.1 ++ ": " ++ formatJson svc e.2 (d + 1)))
        ++ "\n" ++ String.mk (List.replicate (2 * d) ' ') ++ "\x7d" := by
  show "\x7b\n" ++ joinSep ",\n" (formatEntries svc entries (d + 1)) ++ "\n"
      ++ indent (d + 1 - 1) ++ "\x7d" = _
  rw [formatEntries_eq_map]
  simp only [indent_eq, Nat.add_sub_cancel]

/-- Claim C5: a JSON array rendered at depth `d` is `[`, a newline, each
element on its own line indented by exactly `2*(d+1)` spaces followed by its
recursive rendering at depth `d+1`, elements joined by `,\n`, a newline, and
`]` indented by exactly `2*d` spaces; the empty array follows the same rule. -/
theorem c5_array_rendering (svc : FormatService) (vs : List JValue) (d : Nat) :
    formatJson svc (.arr vs) d
      = "[\n"
        ++ joinSep ",\n" (vs.map (fun v =>
            String.mk (List.replicate (2 * (d + 1)) ' ') ++ formatJson svc v (d + 1)))
        ++ "\n" ++ String.mk (List.replicate (2 * d) ' ') ++ "]" := by
  show "[\n" ++ joinSep ",\n" (formatElems svc vs (d + 1)) ++ "\n"
      ++ indent (d + 1 - 1) ++ "]" = _
  rw [formatElems_eq_map]
  simp only [indent_eq, Nat.add_sub_cancel]

set_option maxRecDepth 10000

theorem char_ne_of_toNat {c d : Char} (h : c.val.toNat ≠ d.val.toNat) : c ≠ d := by
  intro he
  exact h (by rw [he])

theorem isWsChar_eq_false (c : Char) (hge : 33 ≤ c.val.toNat) : isWsChar c = false := by
  have w1 : c ≠ ' ' := char_ne_of_toNat (by have e : (' ').val.toNat = 32 := rfl; omega)
  have w2 : c ≠ '\t' := char_ne_of_toNat (by have e : ('\t').val.toNat = 9 := rfl; omega)
  have w3 : c ≠ '\n' := char_ne_of_toNat (by have e : ('\n').val.toNat = 10 := rfl; omega)
  have w4 : c ≠ '\r' := char_ne_of_toNat (by have e : ('\r').val.toNat = 13 := rfl; omega)
  simp [isWsChar, w1, w2, w3, w4]

theorem decDigit_bounds (d : Nat) :
    48 ≤ (decDigit d).val.toNat ∧ (decDigit d).val.toNat ≤ 57 := by
  unfold decDigit
  split <;> decide

theorem decimalAux_bounds (fuel : Nat) :
    ∀ n c, c ∈ decimalAux fuel n → 48 ≤ c.val.toNat ∧ c.val.toNat ≤ 57 := by
  induction fuel with
  | zero => intro n c hc; simp [decimalAux] at hc
  | succ k ih =>
    intro n c hc
    unfold decimalAux at hc
    split at hc
    · simp at hc
    · rcases List.mem_append.mp hc with h1 | h2
      · exact ih _ _ h1
      · rw [List.mem_singleton.mp h2]
        exact decDigit_bounds _

theorem decimal_bounds (n : Nat) :
    ∀ c ∈ (decimal n).data, 48 ≤ c.val.toNat ∧ c.val.toNat ≤ 57 := by
  intro c hc
  unfold decimal at hc
  split at hc
  · simp only [show ("0" : String).data = ['0'] from rfl, List.mem_singleton] at hc
    rw [hc]; decide
  · exact decimalAux_bounds _ _ _ hc

theorem decimal_props (n : Nat) :
    ∀ c ∈ (decimal n).data, c ≠ 'm' ∧ c ≠ '\x1b' := by
  intro c hc
  obtain ⟨h1, h2⟩ := decimal_bounds n c hc
  constructor
  · exact char_ne_of_toNat (by have hm : ('m').val.toNat = 109 := rfl; omega)
  · exact char_ne_of_toNat (by have hm : ('\x1b').val.toNat = 27 := rfl; omega)

theorem foldl_strip_plain (cs : List Char) (h : ∀ c ∈ cs, c ≠ '\x1b') :
    ∀ acc, List.foldl stripStep (false, acc) cs = (false, acc ++ cs) := by
  induction cs with
  | nil => simp
  | cons c rest ih =>
    intro acc
    have hc : c ≠ '\x1b' := h c (List.mem_cons_self c rest)
    have hstep : stripStep (false, acc) c = (false, acc ++ [c]) := by
      simp [stripStep, hc]
    rw [List.foldl_cons, hstep, ih (fun x hx => h x (List.mem_cons_of_mem c hx))]
    simp

theorem foldl_strip_esc (l : List Char) (h : ∀ c ∈ l, c ≠ 'm') :
    ∀ acc rest, List.foldl stripStep (true, acc) (l ++ 'm' :: rest)
      = List.foldl stripStep (false, acc) rest := by
  induction l with
  | nil =>
    intro acc rest
    have hstep : stripStep (true, acc) 'm' = (false, acc) := by simp [stripStep]
    simp [hstep]
  | cons c l ih =>
    intro acc rest
    have hc : c ≠ 'm' := h c (List.mem_cons_self c l)
    have hstep : stripStep (true, acc) c = (true, acc) := by simp [stripStep, hc]
    rw [List.cons_append, List.foldl_cons, hstep,
      ih (fun x hx => h x (List.mem_cons_of_mem c hx))]

theorem foldl_strip_escseq (l : List Char) (h : ∀ c ∈ l, c ≠ 'm') (acc rest : List Char) :
    List.foldl stripStep (false, acc) ('\x1b' :: l ++ 'm' :: rest)
      = List.foldl stripStep (false, acc) rest := by
  have hstep : stripStep (false, acc) '\x1b' = (true, acc) := by simp [stripStep]
  rw [List.cons_append, List.foldl_cons, hstep, foldl_strip_esc l h]

theorem foldl_strip_colorize (col : Color) (s : String) (h : ∀ c ∈ s.data, c ≠ '\x1b')
    (acc rest : List Char) :
    List.foldl stripStep (false, acc) ((colorize col s).data ++ rest)
      = List.foldl stripStep (false, acc ++ s.data) rest := by
  have e1 : ("\x1b[38;2;" : String).data = '\x1b' :: ['[', '3', '8', ';', '2', ';'] := rfl
  have e2 : (";" : String).data = [';'] := rfl
  have e3 : ("m" : String).data = ['m'] := rfl
  have e4 : ("\x1b[0m" : String).data = '\x1b' :: ['[', '0'] ++ ['m'] := rfl
  have hdata : (colorize col s).data ++ rest
      = '\x1b' :: ((['[', '3', '8', ';', '2', ';'] ++ (decimal col.r).data ++ [';']
          ++ (decimal col.g).data ++ [';'] ++ (decimal col.b).data)
        ++ 'm' :: (s.data ++ ('\x1b' :: (['[', '0'] ++ 'm' :: rest)))) := by
    simp [colorize, String.data_append, e1, e2, e3, e4]
  rw [hdata]
  have hL1 : ∀ c ∈ (['[', '3', '8', ';', '2', ';'] ++ (decimal col.r).data ++ [';']
      ++ (decimal col.g).data ++ [';'] ++ (decimal col.b).data), c ≠ 'm' := by
    intro c hc
    simp only [List.mem_append, List.mem_cons, List.not_mem_nil, or_false] at hc
    rcases hc with ((((h1 | h1) | h1) | h1) | h1) | h1
    · rcases h1 with h1 | h1 | h1 | h1 | h1 | h1 <;> (subst h1; decide)
    · exact (decimal_props _ c h1).1
    · subst h1; decide
    · exact (decimal_props _ c h1).1
    · subst h1; decide
    · exact (decimal_props _ c h1).1
  rw [← List.cons_append, foldl_strip_escseq _ hL1]
  rw [List.foldl_append, foldl_strip_plain s.data h acc]
  rw [← List.cons_append]
  exact foldl_strip_escseq ['[', '0'] (by decide) _ rest

theorem stripColorsStr_colorize (col : Color) (t : String) (h : ∀ c ∈ t.data, c ≠ '\x1b') :
    stripColorsStr (colorize col t) = t := by
  apply str_ext
  show stripColorsData (colorize col t).data = t.data
  unfold stripColorsData
  rw [show (colorize col t).data = (colorize col t).data ++ [] from by simp]
  rw [foldl_strip_colorize col t h [] []]
  simp

/-- Claim C2 (counterexample): on the scenario input with the ocean scheme
the program's output is not the claimed block, because object keys are not
wrapped in double quotes. -/
theorem c2_counterexample :
    parseJson c2input
        = some (JValue.obj
            [("a", JValue.num "1"), ("b", JValue.arr [JValue.bool true, JValue.null])])
      ∧ formatInput ⟨ColorPalette.ocean⟩ c2input ≠ c2claimed :=
  ⟨rfl, by decide⟩

/-- Claim C2 (amended): on the scenario input with the ocean scheme the
output is the block `\x7b`, `  a: 1,`, `  b: [`, `    true,`, `    null`,
`  ]`, `\x7d`, the keys colorized with ocean's `object_key` color but not
quoted, `1` with the number color, `true` with the bool color and `null`
with the null color, key order `a` then `b`. -/
theorem c2_ocean_rendering :
    formatInput ⟨ColorPalette.ocean⟩ c2input = c2actual := rfl

/-- Claim C6 (counterexample): a valid scalar input line (a JSON string with
an escaped newline) whose output, after removing color codes, contains a
newline character, against the claim's `no newlines`. -/
theorem c6_counterexample :
    parseJson "\"a\\nb\"" = some (JValue.str "a\nb")
      ∧ isScalar (JValue.str "a\nb") = true
      ∧ (stripColorsStr (formatInput ⟨ColorPalette.chalk⟩ "\"a\\nb\"")).data.contains '\n'
          = true :=
  ⟨rfl, rfl, by decide⟩

/-- Claim C6 (amended): for every valid scalar input line whose literal text
contains no ESC character, the output with color escapes removed is exactly
the literal textual form of the value — so it contains no characters (in
particular no brackets, indentation or newlines) beyond those of the literal
form itself. -/
theorem c6_scalar_literal (svc : FormatService) (line : String) (v : JValue)
    (h1 : parseJson line = some v) (h2 : isScalar v = true)
    (h3 : escFreeScalar v = true) :
    stripColorsStr (formatInput svc line) = literalText v := by
  have hesc : ∀ c ∈ (literalText v).data, c ≠ '\x1b' := by
    intro c hc
    simpa using List.all_eq_true.mp h3 c hc
  unfold formatInput
  rw [h1]
  cases v with
  | null => exact stripColorsStr_colorize _ _ hesc
  | bool b => exact stripColorsStr_colorize _ _ hesc
  | num n => exact stripColorsStr_colorize _ _ hesc
  | str s => exact stripColorsStr_colorize _ _ hesc
  | arr a => simp [isScalar] at h2
  | obj o => simp [isScalar] at h2

/-- Witness for C6 at the concrete scalar input `42`. -/
theorem c6_scalar_literal_witness :
    parseJson "42" = some (JValue.num "42")
      ∧ isScalar (JValue.num "42") = true
      ∧ escFreeScalar (JValue.num "42") = true
      ∧ stripColorsStr (formatInput ⟨ColorPalette.chalk⟩ "42")
          = literalText (JValue.num "42") :=
  ⟨rfl, rfl, rfl, c6_scalar_literal ⟨ColorPalette.chalk⟩ "42" (JValue.num "42") rfl rfl rfl⟩

/-- Claim C7: a JSON string value is rendered as its content wrapped in
literal double quotes, colorized with the palette's string color; no internal
character is escaped further, so removing the color codes leaves exactly the
quoted content. -/
theorem c7_string_rendering (svc : FormatService) (s : String) (d : Nat) :
    formatJson svc (.str s) d = colorize svc.colors.string ("\"" ++ s ++ "\"")
      ∧ ((∀ c ∈ s.data, c ≠ '\x1b') →
          stripColorsStr (formatJson svc (.str s) d) = "\"" ++ s ++ "\"") := by
  constructor
  · rfl
  · intro h
    apply stripColorsStr_colorize
    intro c hc
    rw [String.data_append, String.data_append] at hc
    rcases List.mem_append.mp hc with h1 | h1
    · rcases List.mem_append.mp h1 with h2 | h2
      · rw [List.mem_singleton.mp h2]; decide
      · exact h c h2
    · rw [List.mem_singleton.mp h1]; decide

/-- Witness for C7 at the concrete string value `ab`. -/
theorem c7_string_rendering_witness :
    stripColorsStr (formatJson ⟨ColorPalette.chalk⟩ (JValue.str "ab") 0)
      = "\"" ++ "ab" ++ "\"" :=
  (c7_string_rendering ⟨ColorPalette.chalk⟩ "ab" 0).2 (by decide)

theorem sizeV_pos : ∀ v : JValue, 1 ≤ sizeV v := by
  intro v
  cases v <;> simp [sizeV]

theorem sizeL_pos : ∀ vs : List JValue, 1 ≤ sizeL vs := by
  intro vs
  cases vs with
  | nil => simp [sizeL]
  | cons v vs => have := sizeV_pos v; simp [sizeL]; omega

theorem sizeE_pos : ∀ es : List (String × JValue), 1 ≤ sizeE es := by
  intro es
  cases es with
  | nil => simp [sizeE]
  | cons e es =>
    cases e with
    | mk k v => have := sizeV_pos v; simp [sizeE]; omega

theorem fuel_succ (n : Nat) (h : 1 ≤ n) : ∃ f, n = f + 1 :=
  ⟨n - 1, by omega⟩

mutual

theorem formatJsonFuel_sufficient :
    ∀ (v : JValue) (svc : FormatService) (d fuel : Nat), sizeV v ≤ fuel →
      formatJsonFuel fuel svc v d = some (formatJson svc v d)
  | .null, svc, d, fuel, h => by
    obtain ⟨f, rfl⟩ := fuel_succ fuel (le_trans (sizeV_pos _) h)
    rfl
  | .bool b, svc, d, fuel, h => by
    obtain ⟨f, rfl⟩ := fuel_succ fuel (le_trans (sizeV_pos _) h)
    rfl
  | .num n, svc, d, fuel, h => by
    obtain ⟨f, rfl⟩ := fuel_succ fuel (le_trans (sizeV_pos _) h)
    rfl
  | .str s, svc, d, fuel, h => by
    obtain ⟨f, rfl⟩ := fuel_succ fuel (le_trans (sizeV_pos _) h)
    rfl
  | .arr a, svc, d, fuel, h => by
    obtain ⟨f, rfl⟩ := fuel_succ fuel (le_trans (sizeV_pos _) h)
    have hf : sizeL a ≤ f := by simp [sizeV] at h; omega
    show (formatElemsFuel f svc a (d + 1)).map _ = _
    rw [formatElemsFuel_sufficient a svc (d + 1) f hf]
    rfl
  | .obj o, svc, d, fuel, h => by
    obtain ⟨f, rfl⟩ := fuel_succ fuel (le_trans (sizeV_pos _) h)
    have hf : sizeE o ≤ f := by simp [sizeV] at h; omega
    show (formatEntriesFuel f svc o (d + 1)).map _ = _
    rw [formatEntriesFuel_sufficient o svc (d + 1) f hf]
    rfl

theorem formatElemsFuel_sufficient :
    ∀ (vs : List JValue) (svc : FormatService) (d fuel : Nat), sizeL vs ≤ fuel →
      formatElemsFuel fuel svc vs d = some (formatElems svc vs d)
  | [], svc, d, fuel, h => by cases fuel <;> rfl
  | v :: vs, svc, d, fuel, h => by
    obtain ⟨f, rfl⟩ := fuel_succ fuel (le_trans (sizeL_pos _) h)
    have h1 : sizeV v ≤ f := by have := sizeL_pos vs; simp [sizeL] at h; omega
    have h2 : sizeL vs ≤ f := by have := sizeV_pos v; simp [sizeL] at h; omega
    show (match formatJsonFuel f svc v d with
      | none => none
      | some s =>
        (formatElemsFuel f svc vs d).map (fun rest => (indent d ++ s) :: rest)) = _
    rw [formatJsonFuel_sufficient v svc d f h1, formatElemsFuel_sufficient vs svc d f h2]
    rfl

theorem formatEntriesFuel_sufficient :
    ∀ (es : List (String × JValue)) (svc : FormatService) (d fuel : Nat), sizeE es ≤ fuel →
      formatEntriesFuel fuel svc es d = some (formatEntries svc es d)
  | [], svc, d, fuel, h => by cases fuel <;> rfl
  | (k, v) :: es, svc, d, fuel, h => by
    obtain ⟨f, rfl⟩ := fuel_succ fuel (le_trans (sizeE_pos _) h)
    have h1 : sizeV v ≤ f := by have := sizeE_pos es; simp [sizeE] at h; omega
    have h2 : sizeE es ≤ f := by have := sizeV_pos v; simp [sizeE] at h; omega
    show (match formatJsonFuel f svc v d with
      | none => none
      | some s =>
        (formatEntriesFuel f svc es d).map
          (fun rest => (indent d ++ colorize svc.colors.object_key k ++ ": " ++ s) :: rest)) = _
    rw [formatJsonFuel_sufficient v svc d f h1, formatEntriesFuel_sufficient es svc d f h2]
    rfl

end

/-- Claim C9: `format_input` is total — the recursion of `format_json`,
instrumented with explicit fuel so that running out of fuel is observable,
succeeds on every input line for a fuel bound computed from the parsed value,
and returns exactly what the total function returns. -/
theorem c9_format_input_total (svc : FormatService) (line : String) :
    ∃ fuel out, formatInputFuel fuel svc line = some out ∧ formatInput svc line = out := by
  cases hp : parseJson line with
  | none =>
    refine ⟨0, line, ?_, ?_⟩
    · unfold formatInputFuel
      rw [hp]
    · unfold formatInput
      rw [hp]
  | some v =>
    refine ⟨sizeV v, formatJson svc v 0, ?_, ?_⟩
    · unfold formatInputFuel
      rw [hp]
      exact formatJsonFuel_sufficient v svc 0 (sizeV v) (le_refl _)
    · unfold formatInput
      rw [hp]

theorem isDigit_bounds (c : Char) (h : c.isDigit = true) :
    48 ≤ c.val.toNat ∧ c.val.toNat ≤ 57 := by
  simp [Char.isDigit] at h
  obtain ⟨h1, h2⟩ := h
  exact ⟨by exact_mod_cast h1, by exact_mod_cast h2⟩

theorem digits1_some (l r : List Char) (h : digits1 l = some r) :
    ∃ d tl, l = d :: tl ∧ d.isDigit = true ∧ r = tl.dropWhile Char.isDigit := by
  cases l with
  | nil => simp [digits1] at h
  | cons d tl =>
    by_cases hd : d.isDigit = true
    · simp [digits1, hd] at h
      exact ⟨d, tl, rfl, hd, h.symm⟩
    · simp [digits1, hd] at h

theorem isDigit_isNumChar (c : Char) (h : c.isDigit = true) : isNumChar c = true := by
  simp [isNumChar, h]

theorem wfExpTail_all (cs : List Char) (h : wfExpTail cs = true) :
    ∀ c ∈ cs, isNumChar c = true := by
  cases cs with
  | nil => simp [wfExpTail] at h
  | cons c rest =>
    simp only [wfExpTail] at h
    by_cases hsign : (c = '+' || c = '-') = true
    · rw [if_pos hsign] at h
      cases hd : digits1 rest with
      | none => rw [hd] at h; simp at h
      | some r =>
        rw [hd] at h
        simp at h
        obtain ⟨d, tl, rfl, hdig, hr⟩ := digits1_some rest r hd
        subst h
        have htl : ∀ x ∈ tl, x.isDigit = true :=
          List.dropWhile_eq_nil_iff.mp hr.symm
        intro x hx
        rcases List.mem_cons.mp hx with rfl | hx
        · simp at hsign
          rcases hsign with h1 | h1 <;> (subst h1; decide)
        · rcases List.mem_cons.mp hx with rfl | hx
          · exact isDigit_isNumChar _ hdig
          · exact isDigit_isNumChar _ (htl x hx)
    · rw [if_neg hsign] at h
      cases hd : digits1 (c :: rest) with
      | none => rw [hd] at h; simp at h
      | some r =>
        rw [hd] at h
        simp at h
        obtain ⟨d, tl, heq, hdig, hr⟩ := digits1_some _ r hd
        injection heq with he1 he2
        subst he1
        subst he2
        subst h
        have htl : ∀ x ∈ rest, x.isDigit = true :=
          List.dropWhile_eq_nil_iff.mp hr.symm
        intro x hx
        rcases List.mem_cons.mp hx with rfl | hx
        · exact isDigit_isNumChar _ hdig
        · exact isDigit_isNumChar _ (htl x hx)

theorem wfExpPart_all (cs : List Char) (h : wfExpPart cs = true) :
    ∀ c ∈ cs, isNumChar c = true := by
  cases cs with
  | nil => simp
  | cons c rest =>
    simp only [wfExpPart] at h
    by_cases he : (c = 'e' || c = 'E') = true
    · rw [if_pos he] at h
      intro x hx
      rcases List.mem_cons.mp hx with rfl | hx
      · simp at he
        rcases he with h1 | h1 <;> (subst h1; decide)
      · exact wfExpTail_all rest h x hx
    · rw [if_neg he] at h
      simp at h

theorem wfAfterInt_all (cs : List Char) (h : wfAfterInt cs = true) :
    ∀ c ∈ cs, isNumChar c = true := by
  cases cs with
  | nil => simp
  | cons c rest =>
    simp only [wfAfterInt] at h
    by_cases hdot : c = '.'
    · rw [if_pos hdot] at h
      subst hdot
      cases hd : digits1 rest with
      | none => rw [hd] at h; simp at h
      | some r =>
        rw [hd] at h
        obtain ⟨d, tl, rfl, hdig, hr⟩ := digits1_some rest r hd
        intro x hx
        rcases List.mem_cons.mp hx with rfl | hx
        · decide
        · rcases List.mem_cons.mp hx with rfl | hx
          · exact isDigit_isNumChar _ hdig
          · rw [← List.takeWhile_append_dropWhile (p := Char.isDigit) (l := tl)] at hx
            rcases List.mem_append.mp hx with h1 | h1
            · exact isDigit_isNumChar _ (List.mem_takeWhile_imp h1)
            · rw [← hr] at h1
              exact wfExpPart_all r h x h1
    · rw [if_neg hdot] at h
      by_cases he : (c = 'e' || c = 'E') = true
      · rw [if_pos he] at h
        intro x hx
        rcases List.mem_cons.mp hx with rfl | hx
        · simp at he
          rcases he with h1 | h1 <;> (subst h1; decide)
        · exact wfExpTail_all rest h x hx
      · rw [if_neg he] at h
        simp at h

theorem wfIntPart_all (cs : List Char) (h : wfIntPart cs = true) :
    ∀ c ∈ cs, isNumChar c = true := by
  cases cs with
  | nil => simp
  | cons c rest =>
    simp only [wfIntPart] at h
    by_cases h0 : c = '0'
    · rw [if_pos h0] at h
      subst h0
      intro x hx
      rcases List.mem_cons.mp hx with rfl | hx
      · decide
      · exact wfAfterInt_all rest h x hx
    · rw [if_neg h0] at h
      by_cases hdig : c.isDigit = true
      · rw [if_pos hdig] at h
        intro x hx
        rcases List.mem_cons.mp hx with rfl | hx
        · exact isDigit_isNumChar _ hdig
        · rw [← List.takeWhile_append_dropWhile (p := Char.isDigit) (l := rest)] at hx
          rcases List.mem_append.mp hx with h1 | h1
          · exact isDigit_isNumChar _ (List.mem_takeWhile_imp h1)
          · exact wfAfterInt_all _ h x h1
      · rw [if_neg hdig] at h
        simp at h

theorem wfNumber_all (cs : List Char) (h : wfNumber cs = true) :
    ∀ c ∈ cs, isNumChar c = true := by
  cases cs with
  | nil => simp
  | cons c rest =>
    simp only [wfNumber] at h
    by_cases hm : c = '-'
    · rw [if_pos hm] at h
      subst hm
      intro x hx
      rcases List.mem_cons.mp hx with rfl | hx
      · decide
      · exact wfIntPart_all rest h x hx
    · rw [if_neg hm] at h
      exact wfIntPart_all _ h

theorem wfIntPart_head (c : Char) (rest : List Char) (h : wfIntPart (c :: rest) = true) :
    c.isDigit = true := by
  simp only [wfIntPart] at h
  by_cases h0 : c = '0'
  · subst h0; decide
  · rw [if_neg h0] at h
    by_cases hdig : c.isDigit = true
    · exact hdig
    · rw [if_neg hdig] at h; simp at h

theorem wfNumber_head (cs : List Char) (h : wfNumber cs = true) :
    ∃ c tl, cs = c :: tl ∧ (c = '-' ∨ c.isDigit = true) := by
  cases cs with
  | nil => simp [wfNumber] at h
  | cons c rest =>
    refine ⟨c, rest, rfl, ?_⟩
    simp only [wfNumber] at h
    by_cases hm : c = '-'
    · exact Or.inl hm
    · rw [if_neg hm] at h
      exact Or.inr (wfIntPart_head c rest h)

/-- A list followed by a non-matching boundary splits `takeWhile`/`dropWhile`
exactly at the boundary. -/
theorem takeWhile_all_append (p : Char → Bool) (l rest : List Char)
    (hl : ∀ c ∈ l, p c = true)
    (hr : rest = [] ∨ ∃ c cs, rest = c :: cs ∧ p c = false) :
    (l ++ rest).takeWhile p = l ∧ (l ++ rest).dropWhile p = rest := by
  induction l with
  | nil =>
    rcases hr with rfl | ⟨c, cs, rfl, hc⟩
    · simp
    · simp [List.takeWhile_cons, List.dropWhile_cons, hc]
  | cons a l ih =>
    have ha : p a = true := hl a (List.mem_cons_self a l)
    obtain ⟨ih1, ih2⟩ := ih (fun c hc => hl c (List.mem_cons_of_mem a hc))
    simp [List.takeWhile_cons, List.dropWhile_cons, ha, ih1, ih2]

theorem parseNumber_token (tok rest : List Char) (hwf : wfNumber tok = true)
    (hr : rest = [] ∨ ∃ c cs, rest = c :: cs ∧ isNumChar c = false) :
    parseNumber (tok ++ rest) = some (String.mk tok, rest) := by
  obtain ⟨h1, h2⟩ := takeWhile_all_append isNumChar tok rest (wfNumber_all tok hwf) hr
  simp only [parseNumber, h1, h2, if_pos hwf]

theorem skipWs_cons (c : Char) (l : List Char) (h : isWsChar c = false) :
    skipWs (c :: l) = c :: l := by
  simp [skipWs, List.dropWhile_cons, h]

theorem isNumChar_not_ws (c : Char) (h : isNumChar c = true) : isWsChar c = false := by
  simp only [isNumChar] at h
  simp only [Bool.or_eq_true] at h
  rcases h with ((((hd | hd) | hd) | hd) | hd) | hd
  · obtain ⟨h1, h2⟩ := isDigit_bounds c hd
    exact isWsChar_eq_false c (by omega)
  all_goals (simp at hd; subst hd; decide)

theorem simpleStrChar_props (c : Char) (h : simpleStrChar c = true) :
    isWsChar c = false ∧ c ≠ '"' ∧ c ≠ '\\' ∧ c ≠ '\x1b' ∧ ¬(c.val < 0x20) := by
  simp only [simpleStrChar, Bool.and_eq_true] at h
  obtain ⟨⟨h1, h2⟩, h3⟩ := h
  have hval : 32 < c.val.toNat := by
    have := of_decide_eq_true h1
    exact_mod_cast this
  refine ⟨isWsChar_eq_false c (by omega), by simpa using h2, by simpa using h3, ?_, ?_⟩
  · exact char_ne_of_toNat (by have hm : ('\x1b').val.toNat = 27 := rfl; omega)
  · intro hlt
    have : c.val.toNat < 32 := by exact_mod_cast hlt
    omega

theorem parseStringBody_clean (content : List Char)
    (h : ∀ c ∈ content, simpleStrChar c = true) (rest : List Char) :
    parseStringBody (content ++ '"' :: rest) = some (content, rest) := by
  induction content with
  | nil => rfl
  | cons c cs ih =>
    obtain ⟨hws, hq, hbs, hesc, hctl⟩ := simpleStrChar_props c (h c (List.mem_cons_self c cs))
    show (if c = '"' then some ([], cs ++ '"' :: rest)
      else if c = '\\' then parseEscape (cs ++ '"' :: rest)
      else if c.val < 0x20 then none
      else (parseStringBody (cs ++ '"' :: rest)).map (fun p => (c :: p.1, p.2))) = _
    rw [if_neg hq, if_neg hbs, if_neg hctl,
      ih (fun x hx => h x (List.mem_cons_of_mem c hx))]
    rfl

theorem isDigit_head_props (c : Char) (h : c.isDigit = true) :
    isWsChar c = false ∧ ∀ m ∈ ['n', 't', 'f', '"', '[', '\x7b', ']'], c ≠ m := by
  obtain ⟨h1, h2⟩ := isDigit_bounds c h
  refine ⟨isNumChar_not_ws c (isDigit_isNumChar c h), ?_⟩
  intro m hm
  apply char_ne_of_toNat
  have hv : 90 ≤ m.val.toNat ∨ m.val.toNat = 34 := by
    fin_cases hm <;> decide
  omega

/-- The first character of the compact form of a simple value: never
whitespace and never a closing bracket. -/
theorem compact_head (v : JValue) (h : simpleValue v = true) :
    ∃ c cs, compact v = c :: cs ∧ isWsChar c = false ∧ c ≠ ']' := by
  cases v with
  | num n =>
    have hwf : wfNumber n.data = true := by simpa [simpleValue] using h
    obtain ⟨c, tl, hn, hc⟩ := wfNumber_head n.data hwf
    refine ⟨c, tl, by simp [compact, hn], ?_, ?_⟩
    · rcases hc with rfl | hdig
      · decide
      · exact (isDigit_head_props c hdig).1
    · rcases hc with rfl | hdig
      · decide
      · exact (isDigit_head_props c hdig).2 ']' (by simp)
  | null => refine ⟨'n', "ull".data, rfl, rfl, by decide⟩
  | bool b =>
    cases b
    case true => refine ⟨'t', "rue".data, rfl, rfl, by decide⟩
    case false => refine ⟨'f', "alse".data, rfl, rfl, by decide⟩
  | str s => refine ⟨'"', s.data ++ ['"'], rfl, rfl, by decide⟩
  | arr a => refine ⟨'[', compactElems a ++ [']'], rfl, rfl, by decide⟩
  | obj o => refine ⟨'\x7b', compactEntries o ++ ['\x7d'], rfl, rfl, by decide⟩

/-- One step of `parseValue` on input starting with a non-whitespace
character: the dispatch on that character. -/
theorem parseValue_cons (f : Nat) (c : Char) (l : List Char) (h : isWsChar c = false) :
    parseValue (f + 1) (c :: l)
      = (if c = 'n' then (expectChars ['u', 'l', 'l'] l).map (fun r => (JValue.null, r))
        else if c = 't' then (expectChars ['r', 'u', 'e'] l).map (fun r => (JValue.bool true, r))
        else if c = 'f' then
          (expectChars ['a', 'l', 's', 'e'] l).map (fun r => (JValue.bool false, r))
        else if c = '"' then
          (parseStringBody l).map (fun p => (JValue.str (String.mk p.1), p.2))
        else if c = '[' then
          match skipWs l with
          | ']' :: rest2 => some (JValue.arr [], rest2)
          | rest2 => (parseElems f rest2).map (fun p => (JValue.arr p.1, p.2))
        else if c = '\x7b' then
          match skipWs l with
          | '\x7d' :: rest2 => some (JValue.obj [], rest2)
          | rest2 => (parseMembers f rest2).map (fun p => (JValue.obj (buildMap p.1), p.2))
        else (parseNumber (c :: l)).map (fun p => (JValue.num p.1, p.2))) := by
  unfold parseValue
  rw [skipWs_cons c l h]

theorem parseElems_step (f : Nat) (input : List Char) :
    parseElems (f + 1) input
      = (match parseValue f input with
        | none => none
        | some (v, rest) =>
          match skipWs rest with
          | ',' :: rest2 => (parseElems f rest2).map (fun p => (v :: p.1, p.2))
          | ']' :: rest2 => some ([v], rest2)
          | _ => none) := rfl

theorem stopTok_num (rest : List Char) (hstop : stopTok rest) :
    rest = [] ∨ ∃ c cs, rest = c :: cs ∧ isNumChar c = false := by
  cases rest with
  | nil => exact Or.inl rfl
  | cons c cs =>
    refine Or.inr ⟨c, cs, rfl, ?_⟩
    rcases hstop with rfl | rfl <;> decide

mutual

theorem parseValue_compact :
    ∀ (v : JValue), simpleValue v = true → ∀ (fuel : Nat) (rest : List Char),
      sizeV v ≤ fuel → stopTok rest →
      parseValue fuel (compact v ++ rest) = some (v, rest)
  | .null, h, fuel, rest, hfuel, hstop => by
    obtain ⟨f, rfl⟩ := fuel_succ fuel (le_trans (sizeV_pos _) hfuel)
    rfl
  | .bool true, h, fuel, rest, hfuel, hstop => by
    obtain ⟨f, rfl⟩ := fuel_succ fuel (le_trans (sizeV_pos _) hfuel)
    rfl
  | .bool false, h, fuel, rest, hfuel, hstop => by
    obtain ⟨f, rfl⟩ := fuel_succ fuel (le_trans (sizeV_pos _) hfuel)
    rfl
  | .num n, h, fuel, rest, hfuel, hstop => by
    obtain ⟨f, rfl⟩ := fuel_succ fuel (le_trans (sizeV_pos _) hfuel)
    have hwf : wfNumber n.data = true := by simpa [simpleValue] using h
    obtain ⟨c, tl, hn, hc⟩ := wfNumber_head n.data hwf
    have hws : isWsChar c = false := by
      rcases hc with rfl | hdg
      · decide
      · exact (isDigit_head_props c hdg).1
    have hne : ∀ m ∈ ['n', 't', 'f', '"', '[', '\x7b'], c ≠ m := by
      rcases hc with rfl | hd
      · intro m hm
        fin_cases hm <;> decide
      · intro m hm
        refine (isDigit_head_props c hd).2 m ?_
        fin_cases hm <;> simp
    show parseValue (f + 1) (compact (JValue.num n) ++ rest) = _
    rw [show compact (JValue.num n) = n.data from rfl, hn, List.cons_append,
      parseValue_cons f c (tl ++ rest) hws,
      if_neg (hne 'n' (by simp)), if_neg (hne 't' (by simp)), if_neg (hne 'f' (by simp)),
      if_neg (hne '"' (by simp)), if_neg (hne '[' (by simp)),
      if_neg (hne '\x7b' (by simp)),
      ← List.cons_append, ← hn, parseNumber_token n.data rest hwf (stopTok_num rest hstop)]
    rfl
  | .str s, h, fuel, rest, hfuel, hstop => by
    obtain ⟨f, rfl⟩ := fuel_succ fuel (le_trans (sizeV_pos _) hfuel)
    have hall : ∀ c ∈ s.data, simpleStrChar c = true := by
      simpa [simpleValue, List.all_eq_true] using h
    show parseValue (f + 1) (compact (JValue.str s) ++ rest) = _
    rw [show compact (JValue.str s) ++ rest = '"' :: (s.data ++ '"' :: rest) from by
      simp [compact]]
    rw [show parseValue (f + 1) ('"' :: (s.data ++ '"' :: rest))
        = (parseStringBody (s.data ++ '"' :: rest)).map
            (fun p => (JValue.str (String.mk p.1), p.2)) from rfl]
    rw [parseStringBody_clean s.data hall rest]
    rfl
  | .arr a, h, fuel, rest, hfuel, hstop => by
    obtain ⟨f, rfl⟩ := fuel_succ fuel (le_trans (sizeV_pos _) hfuel)
    have hsl : simpleList a = true := by simpa [simpleValue] using h
    show parseValue (f + 1) (compact (JValue.arr a) ++ rest) = some (JValue.arr a, rest)
    rw [show compact (JValue.arr a) ++ rest = '[' :: (compactElems a ++ ']' :: rest) from by
      simp [compact]]
    rw [show parseValue (f + 1) ('[' :: (compactElems a ++ ']' :: rest))
        = (match skipWs (compactElems a ++ ']' :: rest) with
          | ']' :: rest2 => some (JValue.arr [], rest2)
          | rest2 => (parseElems f rest2).map (fun p => (JValue.arr p.1, p.2))) from rfl]
    cases a with
    | nil =>
      rw [show compactElems ([] : List JValue) ++ ']' :: rest = ']' :: rest from rfl,
        skipWs_cons ']' rest (by decide)]
      rfl
    | cons v vs =>
      have hv : simpleValue v = true := by
        simp only [simpleList, Bool.and_eq_true] at hsl
        exact hsl.1
      obtain ⟨c0, cs0, hc0, hc0ws, hc0ne⟩ := compact_head v hv
      have hY : ∃ Y, compactElems (v :: vs) ++ ']' :: rest = c0 :: Y := by
        cases vs with
        | nil => exact ⟨cs0 ++ ']' :: rest, by simp [compactElems, hc0]⟩
        | cons w ws =>
          exact ⟨cs0 ++ ',' :: compactElems (w :: ws) ++ ']' :: rest, by
            simp [compactElems, hc0]⟩
      obtain ⟨Y, hYe⟩ := hY
      rw [hYe, skipWs_cons c0 Y hc0ws]
      have hf : sizeL (v :: vs) ≤ f := by
        simp only [sizeV] at hfuel
        omega
      split
      · rename_i r2 heq
        injection heq with he1 he2
        exact absurd he1 hc0ne
      · rw [← hYe, parseElems_compact (v :: vs) hsl (by simp) f rest hf]
        rfl
  | .obj es, h, fuel, rest, hfuel, hstop => by
    have he : es = [] := by
      simpa [simpleValue, List.isEmpty_iff] using h
    subst he
    obtain ⟨f, rfl⟩ := fuel_succ fuel (le_trans (sizeV_pos _) hfuel)
    rfl

theorem parseElems_compact :
    ∀ (vs : List JValue), simpleList vs = true → vs ≠ [] →
      ∀ (fuel : Nat) (rest : List Char), sizeL vs ≤ fuel →
      parseElems fuel (compactElems vs ++ ']' :: rest) = some (vs, rest)
  | [], _, hne, _, _, _ => absurd rfl hne
  | v :: vs, h, hne, fuel, rest, hfuel => by
    obtain ⟨f, rfl⟩ := fuel_succ fuel (le_trans (sizeL_pos _) hfuel)
    have hv : simpleValue v = true := by
      simp only [simpleList, Bool.and_eq_true] at h
      exact h.1
    have hvs : simpleList vs = true := by
      simp only [simpleList, Bool.and_eq_true] at h
      exact h.2
    have hfv : sizeV v ≤ f := by
      have := sizeL_pos vs
      simp only [sizeL] at hfuel
      omega
    have hfvs : sizeL vs ≤ f := by
      have := sizeV_pos v
      simp only [sizeL] at hfuel
      omega
    rw [parseElems_step]
    cases vs with
    | nil =>
      rw [show compactElems [v] ++ ']' :: rest = compact v ++ ']' :: rest from rfl,
        parseValue_compact v hv f (']' :: rest) hfv (Or.inr rfl)]
      show (match skipWs (']' :: rest) with
        | ',' :: rest2 => (parseElems f rest2).map (fun p => (v :: p.1, p.2))
        | ']' :: rest2 => some ([v], rest2)
        | _ => none) = some ([v], rest)
      rw [skipWs_cons ']' rest (by decide)]
      rfl
    | cons w ws =>
      rw [show compactElems (v :: w :: ws) ++ ']' :: rest
          = compact v ++ ',' :: (compactElems (w :: ws) ++ ']' :: rest) from by
        simp [compactElems]]
      rw [parseValue_compact v hv f (',' :: (compactElems (w :: ws) ++ ']' :: rest)) hfv
        (Or.inl rfl)]
      show (match skipWs (',' :: (compactElems (w :: ws) ++ ']' :: rest)) with
        | ',' :: rest2 => (parseElems f rest2).map (fun p => (v :: p.1, p.2))
        | ']' :: rest2 => some ([v], rest2)
        | _ => none) = some (v :: w :: ws, rest)
      rw [skipWs_cons ',' _ (by decide)]
      show (parseElems f (compactElems (w :: ws) ++ ']' :: rest)).map
          (fun p => (v :: p.1, p.2)) = some (v :: w :: ws, rest)
      rw [parseElems_compact (w :: ws) hvs (by simp) f rest hfvs]
      rfl

end

theorem foldl_strip_plain_append (l : List Char) (h : ∀ c ∈ l, c ≠ '\x1b')
    (acc rest : List Char) :
    List.foldl stripStep (false, acc) (l ++ rest)
      = List.foldl stripStep (false, acc ++ l) rest := by
  rw [List.foldl_append, foldl_strip_plain l h acc]

theorem indent_noesc (d : Nat) : ∀ c ∈ (indent d).data, c ≠ '\x1b' := by
  rw [indent_eq]
  intro c hc
  rw [List.eq_of_mem_replicate hc]
  decide

theorem isNumChar_ne_esc (c : Char) (h : isNumChar c = true) : c ≠ '\x1b' := by
  simp only [isNumChar, Bool.or_eq_true] at h
  rcases h with ((((hd | hd) | hd) | hd) | hd) | hd
  · obtain ⟨h1, h2⟩ := isDigit_bounds c hd
    exact char_ne_of_toNat (by have hm : ('\x1b').val.toNat = 27 := rfl; omega)
  all_goals (simp at hd; subst hd; decide)

theorem str_quoted_noesc (s : String) (h : ∀ c ∈ s.data, simpleStrChar c = true) :
    ∀ c ∈ ("\"" ++ s ++ "\"").data, c ≠ '\x1b' := by
  intro c hc
  rw [String.data_append, String.data_append] at hc
  rcases List.mem_append.mp hc with h1 | h1
  · rcases List.mem_append.mp h1 with h2 | h2
    · rw [List.mem_singleton.mp h2]; decide
    · exact (simpleStrChar_props c (h c h2)).2.2.2.1
  · rw [List.mem_singleton.mp h1]; decide

mutual

theorem stripJson_foldl :
    ∀ (v : JValue), simpleValue v = true → ∀ (svc : FormatService) (d : Nat)
      (acc rest : List Char),
      List.foldl stripStep (false, acc) ((formatJson svc v d).data ++ rest)
        = List.foldl stripStep (false, acc ++ (plainJson v d).data) rest
  | .null, h, svc, d, acc, rest =>
    foldl_strip_colorize svc.colors.null "null" (by decide) acc rest
  | .bool true, h, svc, d, acc, rest =>
    foldl_strip_colorize svc.colors.bool "true" (by decide) acc rest
  | .bool false, h, svc, d, acc, rest =>
    foldl_strip_colorize svc.colors.bool "false" (by decide) acc rest
  | .num n, h, svc, d, acc, rest => by
    have hwf : wfNumber n.data = true := by simpa [simpleValue] using h
    exact foldl_strip_colorize svc.colors.number n
      (fun c hc => isNumChar_ne_esc c (wfNumber_all n.data hwf c hc)) acc rest
  | .str s, h, svc, d, acc, rest => by
    have hall : ∀ c ∈ s.data, simpleStrChar c = true := by
      simpa [simpleValue, List.all_eq_true] using h
    exact foldl_strip_colorize svc.colors.string ("\"" ++ s ++ "\"")
      (str_quoted_noesc s hall) acc rest
  | .arr a, h, svc, d, acc, rest => by
    have hsl : simpleList a = true := by simpa [simpleValue] using h
    have l1 : ("[\n" : String).data = ['[', '\n'] := rfl
    have l2 : ("\n" : String).data = ['\n'] := rfl
    have l3 : ("]" : String).data = [']'] := rfl
    have e : (formatJson svc (.arr a) d).data ++ rest
        = ['[', '\n'] ++ ((joinSep ",\n" (formatElems svc a (d + 1))).data
            ++ ('\n' :: ((indent d).data ++ (']' :: rest)))) := by
      show ("[\n" ++ joinSep ",\n" (formatElems svc a (d + 1)) ++ "\n"
          ++ indent (d + 1 - 1) ++ "]").data ++ rest = _
      simp [String.data_append, l1, l2, l3]
    rw [e, foldl_strip_plain_append ['[', '\n'] (by decide),
      stripElems_foldl a hsl svc (d + 1) _ _]
    rw [show '\n' :: ((indent d).data ++ (']' :: rest))
        = ('\n' :: ((indent d).data ++ [']'])) ++ rest from by simp]
    rw [foldl_strip_plain_append ('\n' :: ((indent d).data ++ [']']))
      (by
        intro c hc
        rcases List.mem_cons.mp hc with rfl | hc
        · decide
        · rcases List.mem_append.mp hc with h1 | h1
          · exact indent_noesc d c h1
          · rw [List.mem_singleton.mp h1]; decide)]
    have hacc : acc ++ ['[', '\n'] ++ (joinSep ",\n" (plainElems a (d + 1))).data
        ++ ('\n' :: ((indent d).data ++ [']']))
        = acc ++ (plainJson (.arr a) d).data := by
      show _ = acc ++ ("[\n" ++ joinSep ",\n" (plainElems a (d + 1)) ++ "\n"
          ++ indent d ++ "]").data
      simp [String.data_append, l1, l2, l3]
    rw [hacc]
  | .obj es, h, svc, d, acc, rest => by
    have he : es = [] := by simpa [simpleValue, List.isEmpty_iff] using h
    subst he
    have l1 : ("\x7b\n" : String).data = ['\x7b', '\n'] := rfl
    have l2 : ("" : String).data = [] := rfl
    have l3 : ("\n" : String).data = ['\n'] := rfl
    have l4 : ("\x7d" : String).data = ['\x7d'] := rfl
    have e : (formatJson svc (.obj []) d).data ++ rest
        = ('\x7b' :: '\n' :: '\n' :: ((indent d).data ++ ['\x7d'])) ++ rest := by
      show ("\x7b\n" ++ joinSep ",\n" (formatEntries svc [] (d + 1)) ++ "\n"
          ++ indent (d + 1 - 1) ++ "\x7d").data ++ rest = _
      simp [String.data_append, joinSep, formatEntries, l1, l2, l3, l4]
    rw [e, foldl_strip_plain_append ('\x7b' :: '\n' :: '\n' :: ((indent d).data ++ ['\x7d']))
      (by
        intro c hc
        rcases List.mem_cons.mp hc with rfl | hc
        · decide
        · rcases List.mem_cons.mp hc with rfl | hc
          · decide
          · rcases List.mem_cons.mp hc with rfl | hc
            · decide
            · rcases List.mem_append.mp hc with h1 | h1
              · exact indent_noesc d c h1
              · rw [List.mem_singleton.mp h1]; decide)]
    have hacc : acc ++ ('\x7b' :: '\n' :: '\n' :: ((indent d).data ++ ['\x7d']))
        = acc ++ (plainJson (.obj []) d).data := by
      show _ = acc ++ ("\x7b\n" ++ joinSep ",\n" (plainEntries [] (d + 1)) ++ "\n"
          ++ indent d ++ "\x7d").data
      simp [String.data_append, joinSep, plainEntries, l1, l2, l3, l4]
    rw [hacc]

theorem stripElems_foldl :
    ∀ (vs : List JValue), simpleList vs = true → ∀ (svc : FormatService) (d : Nat)
      (acc rest : List Char),
      List.foldl stripStep (false, acc) ((joinSep ",\n" (formatElems svc vs d)).data ++ rest)
        = List.foldl stripStep (false, acc ++ (joinSep ",\n" (plainElems vs d)).data) rest
  | [], h, svc, d, acc, rest => by
    show List.foldl stripStep (false, acc) (("" : String).data ++ rest)
      = List.foldl stripStep (false, acc ++ ("" : String).data) rest
    simp
  | [v], h, svc, d, acc, rest => by
    have hv : simpleValue v = true := by
      simp only [simpleList, Bool.and_eq_true] at h
      exact h.1
    show List.foldl stripStep (false, acc) ((indent d ++ formatJson svc v d).data ++ rest)
      = List.foldl stripStep (false, acc ++ (indent d ++ plainJson v d).data) rest
    rw [show (indent d ++ formatJson svc v d).data ++ rest
        = (indent d).data ++ ((formatJson svc v d).data ++ rest) from by
      simp [String.data_append]]
    rw [foldl_strip_plain_append (indent d).data (indent_noesc d),
      stripJson_foldl v hv svc d _ _]
    rw [show acc ++ (indent d).data ++ (plainJson v d).data
        = acc ++ (indent d ++ plainJson v d).data from by simp [String.data_append]]
  | v :: w :: ws, h, svc, d, acc, rest => by
    have hv : simpleValue v = true := by
      simp only [simpleList, Bool.and_eq_true] at h
      exact h.1
    have hws : simpleList (w :: ws) = true := by
      simp only [simpleList, Bool.and_eq_true] at h
      simp only [simpleList, Bool.and_eq_true]
      exact h.2
    have lc : (",\n" : String).data = [',', '\n'] := rfl
    show List.foldl stripStep (false, acc)
        (((indent d ++ formatJson svc v d) ++ ",\n"
          ++ joinSep ",\n" (formatElems svc (w :: ws) d)).data ++ rest)
      = List.foldl stripStep
          (false, acc ++ ((indent d ++ plainJson v d) ++ ",\n"
            ++ joinSep ",\n" (plainElems (w :: ws) d)).data) rest
    rw [show ((indent d ++ formatJson svc v d) ++ ",\n"
          ++ joinSep ",\n" (formatElems svc (w :: ws) d)).data ++ rest
        = (indent d).data ++ ((formatJson svc v d).data
            ++ ([',', '\n'] ++ ((joinSep ",\n" (formatElems svc (w :: ws) d)).data ++ rest)))
        from by simp [String.data_append, lc]]
    rw [foldl_strip_plain_append (indent d).data (indent_noesc d),
      stripJson_foldl v hv svc d _ _,
      foldl_strip_plain_append [',', '\n'] (by decide),
      stripElems_foldl (w :: ws) hws svc d _ _]
    rw [show acc ++ (indent d).data ++ (plainJson v d).data ++ [',', '\n']
          ++ (joinSep ",\n" (plainElems (w :: ws) d)).data
        = acc ++ ((indent d ++ plainJson v d) ++ ",\n"
            ++ joinSep ",\n" (plainElems (w :: ws) d)).data
        from by simp [String.data_append, lc]]

end

theorem indent_filter (d : Nat) :
    (indent d).data.filter (fun c => !isWsChar c) = [] := by
  rw [indent_eq]
  show (List.replicate (2 * d) ' ').filter (fun c => !isWsChar c) = []
  induction 2 * d with
  | zero => rfl
  | succ m ih => rw [List.replicate_succ, List.filter_cons]; simp [isWsChar, ih]

theorem num_filter (n : List Char) (h : ∀ c ∈ n, isNumChar c = true) :
    n.filter (fun c => !isWsChar c) = n := by
  apply List.filter_eq_self.mpr
  intro c hc
  simp [isNumChar_not_ws c (h c hc)]

mutual

theorem plainFilter :
    ∀ (v : JValue), simpleValue v = true → ∀ d : Nat,
      (plainJson v d).data.filter (fun c => !isWsChar c) = compact v
  | .null, h, d => rfl
  | .bool true, h, d => rfl
  | .bool false, h, d => rfl
  | .num n, h, d => by
    have hwf : wfNumber n.data = true := by simpa [simpleValue] using h
    show n.data.filter (fun c => !isWsChar c) = n.data
    exact num_filter n.data (wfNumber_all n.data hwf)
  | .str s, h, d => by
    have hall : ∀ c ∈ s.data, simpleStrChar c = true := by
      simpa [simpleValue, List.all_eq_true] using h
    show ("\"" ++ s ++ "\"").data.filter (fun c => !isWsChar c) = '"' :: s.data ++ ['"']
    rw [show ("\"" ++ s ++ "\"").data = '"' :: (s.data ++ ['"']) from by
      simp [String.data_append]]
    rw [List.filter_cons, List.filter_append]
    have hs : s.data.filter (fun c => !isWsChar c) = s.data := by
      apply List.filter_eq_self.mpr
      intro c hc
      simp [(simpleStrChar_props c (hall c hc)).1]
    have hq : (!isWsChar '"') = true := rfl
    have hq2 : List.filter (fun c => !isWsChar c) ['"'] = ['"'] := rfl
    simp [hs, hq, hq2]
  | .arr a, h, d => by
    have hsl : simpleList a = true := by simpa [simpleValue] using h
    show ("[\n" ++ joinSep ",\n" (plainElems a (d + 1)) ++ "\n" ++ indent d
        ++ "]").data.filter (fun c => !isWsChar c) = '[' :: compactElems a ++ [']']
    rw [show ("[\n" ++ joinSep ",\n" (plainElems a (d + 1)) ++ "\n" ++ indent d ++ "]").data
        = '[' :: '\n' :: ((joinSep ",\n" (plainElems a (d + 1))).data
            ++ ('\n' :: ((indent d).data ++ [']']))) from by
      simp [String.data_append]]
    rw [List.filter_cons, List.filter_cons, List.filter_append, List.filter_cons,
      List.filter_append, plainElemsFilter a hsl (d + 1), indent_filter d]
    simp [isWsChar]
  | .obj es, h, d => by
    have he : es = [] := by simpa [simpleValue, List.isEmpty_iff] using h
    subst he
    show ("\x7b\n" ++ joinSep ",\n" (plainEntries [] (d + 1)) ++ "\n" ++ indent d
        ++ "\x7d").data.filter (fun c => !isWsChar c)
      = '\x7b' :: compactEntries [] ++ ['\x7d']
    rw [show ("\x7b\n" ++ joinSep ",\n" (plainEntries [] (d + 1)) ++ "\n" ++ indent d
        ++ "\x7d").data
        = '\x7b' :: '\n' :: '\n' :: ((indent d).data ++ ['\x7d']) from by
      simp [String.data_append, plainEntries, joinSep]]
    rw [List.filter_cons, List.filter_cons, List.filter_cons, List.filter_append,
      indent_filter d]
    simp [isWsChar, compactEntries]

theorem plainElemsFilter :
    ∀ (vs : List JValue), simpleList vs = true → ∀ d : Nat,
      (joinSep ",\n" (plainElems vs d)).data.filter (fun c => !isWsChar c)
        = compactElems vs
  | [], h, d => rfl
  | [v], h, d => by
    have hv : simpleValue v = true := by
      simp only [simpleList, Bool.and_eq_true] at h
      exact h.1
    show (indent d ++ plainJson v d).data.filter (fun c => !isWsChar c) = compact v
    rw [show (indent d ++ plainJson v d).data = (indent d).data ++ (plainJson v d).data
        from by simp [String.data_append]]
    rw [List.filter_append, indent_filter d, plainFilter v hv d]
    simp
  | v :: w :: ws, h, d => by
    have hv : simpleValue v = true := by
      simp only [simpleList, Bool.and_eq_true] at h
      exact h.1
    have hws : simpleList (w :: ws) = true := by
      simp only [simpleList, Bool.and_eq_true] at h
      simp only [simpleList, Bool.and_eq_true]
      exact h.2
    show ((indent d ++ plainJson v d) ++ ",\n"
        ++ joinSep ",\n" (plainElems (w :: ws) d)).data.filter (fun c => !isWsChar c)
      = compact v ++ ',' :: compactElems (w :: ws)
    rw [show ((indent d ++ plainJson v d) ++ ",\n"
          ++ joinSep ",\n" (plainElems (w :: ws) d)).data
        = (indent d).data ++ ((plainJson v d).data
            ++ (',' :: '\n' :: (joinSep ",\n" (plainElems (w :: ws) d)).data)) from by
      simp [String.data_append]]
    rw [List.filter_append, List.filter_append, indent_filter d, plainFilter v hv d,
      List.filter_cons, List.filter_cons, plainElemsFilter (w :: ws) hws d]
    simp [isWsChar]

end

/-- Stripping color escapes and whitespace from the formatted output of a
simple value leaves exactly its compact form. -/
theorem stripAll_format (svc : FormatService) (v : JValue) (d : Nat)
    (h : simpleValue v = true) :
    stripAll (formatJson svc v d) = String.mk (compact v) := by
  unfold stripAll
  have h1 : stripColorsData (formatJson svc v d).data = (plainJson v d).data := by
    unfold stripColorsData
    rw [show (formatJson svc v d).data = (formatJson svc v d).data ++ [] from by simp,
      stripJson_foldl v h svc d [] []]
    simp
  rw [h1, plainFilter v h d]

mutual

theorem compact_len : ∀ v : JValue, simpleValue v = true → sizeV v ≤ (compact v).length
  | .null, h => by simp [compact, sizeV]
  | .bool true, h => by simp [compact, sizeV]
  | .bool false, h => by simp [compact, sizeV]
  | .num n, h => by
    have hwf : wfNumber n.data = true := by simpa [simpleValue] using h
    obtain ⟨c, tl, hn, _⟩ := wfNumber_head n.data hwf
    simp [compact, sizeV, hn]
  | .str s, h => by simp [compact, sizeV]
  | .arr a, h => by
    have hsl : simpleList a = true := by simpa [simpleValue] using h
    have := compactElems_len a hsl
    simp only [compact, sizeV, List.length_cons, List.length_append,
      List.length_singleton]
    omega
  | .obj es, h => by
    have he : es = [] := by simpa [simpleValue, List.isEmpty_iff] using h
    subst he
    simp [compact, sizeV, sizeE, compactEntries]

theorem compactElems_len :
    ∀ vs : List JValue, simpleList vs = true → sizeL vs ≤ (compactElems vs).length + 1
  | [], h => by simp [compactElems, sizeL]
  | [v], h => by
    have hv : simpleValue v = true := by
      simp only [simpleList, Bool.and_eq_true] at h
      exact h.1
    have := compact_len v hv
    simp only [compactElems, sizeL]
    omega
  | v :: w :: ws, h => by
    have hv : simpleValue v = true := by
      simp only [simpleList, Bool.and_eq_true] at h
      exact h.1
    have hws : simpleList (w :: ws) = true := by
      simp only [simpleList, Bool.and_eq_true] at h
      simp only [simpleList, Bool.and_eq_true]
      exact h.2
    have h1 := compact_len v hv
    have h2 := compactElems_len (w :: ws) hws
    show sizeV v + sizeL (w :: ws) ≤ (compact v ++ ',' :: compactElems (w :: ws)).length + 1
    simp only [List.length_append, List.length_cons]
    omega

end

/-- Claim C1 (counterexample): the valid JSON object input whose stripped
output does not re-parse — `format_object` renders the key without quotes, so
stripping colors and whitespace from the output of `\x7b"a":1\x7d` gives
`\x7ba:1\x7d`, which is not valid JSON. -/
theorem c1_counterexample :
    parseJson "\x7b\"a\":1\x7d" = some (JValue.obj [("a", JValue.num "1")])
      ∧ stripAll (formatInput ⟨ColorPalette.chalk⟩ "\x7b\"a\":1\x7d") = "\x7ba:1\x7d"
      ∧ parseJson (stripAll (formatInput ⟨ColorPalette.chalk⟩ "\x7b\"a\":1\x7d")) = none := by
  exact ⟨rfl, rfl, rfl⟩

/-- Claim C1 (amended): the structural round trip holds for every valid JSON
input whose value contains no non-empty object (any nesting of null,
booleans, numbers, arrays, the empty object, and strings of printable
non-whitespace characters other than quote and backslash): stripping color
escape codes and all whitespace from the output of `format_input` and
re-parsing yields exactly the parsed input value. -/
theorem c1_roundtrip_amended (svc : FormatService) (line : String) (v : JValue)
    (h1 : parseJson line = some v) (h2 : simpleValue v = true) :
    parseJson (stripAll (formatInput svc line)) = some v := by
  unfold formatInput
  rw [h1, stripAll_format svc v 0 h2]
  have hp : parseValue ((compact v).length + 1) (compact v) = some (v, []) := by
    have hx := parseValue_compact v h2 ((compact v).length + 1) []
      (by have := compact_len v h2; omega) trivial
    simpa using hx
  show (match parseValue ((compact v).length + 1) (compact v) with
    | some (w, rest) => if (skipWs rest).isEmpty then some w else none
    | none => none) = some v
  rw [hp]
  rfl

/-- Witness for C1 at a concrete array of scalars. -/
theorem c1_roundtrip_amended_witness :
    parseJson "[1,true,null,\"ab\"]"
        = some (JValue.arr [JValue.num "1", JValue.bool true, JValue.null, JValue.str "ab"])
      ∧ simpleValue (JValue.arr [JValue.num "1", JValue.bool true, JValue.null,
          JValue.str "ab"]) = true
      ∧ parseJson (stripAll (formatInput ⟨ColorPalette.ocean⟩ "[1,true,null,\"ab\"]"))
          = some (JValue.arr [JValue.num "1", JValue.bool true, JValue.null,
              JValue.str "ab"]) :=
  ⟨rfl, rfl, c1_roundtrip_amended ⟨ColorPalette.ocean⟩ "[1,true,null,\"ab\"]" _ rfl rfl⟩
